import Mathlib

/-!
Verification of the tree-view interaction engine (`base-ui-tree`).

The definitions below are a shallow embedding of the tree component's
state model and algorithms: the node type, the visible-id / disabled-id
computation, checked-state propagation (`updateParentCheckStates`,
`handleToggleChecked`, `handleLocalCheckboxChange` in both its global and
local variants), the roving-tabindex computation, and the keyboard
navigation scans.  `Set<string>` values are modelled as `Finset String`,
arrays of ids as `List String`, and the optional `children` array as a
`List TreeNode` (an absent or empty array both behave as the empty list).
-/

namespace TreeSpec

/-- A node of the caller-supplied tree: `id`, `disabled` flag and ordered
children.  Display-only fields (`name`, `icon`, `badge`, ...) play no role
in the state model and are omitted. -/
inductive TreeNode : Type where
  | mk (id : String) (disabled : Bool) (children : List TreeNode)

def TreeNode.id : TreeNode → String
  | .mk i _ _ => i

def TreeNode.disabled : TreeNode → Bool
  | .mk _ d _ => d

def TreeNode.children : TreeNode → List TreeNode
  | .mk _ _ cs => cs

/-- Source function `getAllDescendantIds`: every id strictly below the given
children list, in pre-order. -/
def getAllDescendantIds : List TreeNode → List String
  | [] => []
  | .mk i _ cs :: rest => i :: (getAllDescendantIds cs ++ getAllDescendantIds rest)

/-- Source function `getLeafNodeIds`: ids of the childless nodes below the
given list, in pre-order. -/
def getLeafNodeIds : List TreeNode → List String
  | [] => []
  | .mk i _ cs :: rest =>
    if cs.isEmpty then i :: getLeafNodeIds rest
    else getLeafNodeIds cs ++ getLeafNodeIds rest

/-- Source function `updateParentCheckStates`: walk the node list in order;
for each node with children, first recurse into the children (bottom-up),
then add the node's id when every leaf descendant is checked and remove it
otherwise.  The mutated `Set` is threaded as an explicit `Finset`. -/
def updateParentCheckStates : List TreeNode → Finset String → Finset String
  | [], s => s
  | .mk i _ cs :: rest, s =>
    if cs.isEmpty then updateParentCheckStates rest s
    else
      let s1 := updateParentCheckStates cs s
      let s2 := if ∀ l ∈ getLeafNodeIds cs, l ∈ s1 then insert i s1 else s1.erase i
      updateParentCheckStates rest s2

/-- The `collectVisibleIds` traversal of the source: pushes every reached
node's id, records its id in the disabled map when `node.disabled`, and
recurses into children only when the node is expanded.  Returns
(visibleNodeIds, disabled ids in traversal order). -/
def collectVisibleIds (expandedNodes : Finset String) :
    List TreeNode → List String × List String
  | [] => ([], [])
  | .mk i d cs :: rest =>
    let childPart :=
      if i ∈ expandedNodes then collectVisibleIds expandedNodes cs else ([], [])
    let restPart := collectVisibleIds expandedNodes rest
    (i :: (childPart.1 ++ restPart.1),
     (if d then [i] else []) ++ (childPart.2 ++ restPart.2))

/-- Source function `handleToggleNode` (the Expansion Controller): flip
membership of `nodeId` in the expanded set. -/
def handleToggleNode (expandedNodes : Finset String) (nodeId : String) : Finset String :=
  if nodeId ∈ expandedNodes then expandedNodes.erase nodeId else insert nodeId expandedNodes

/-- Body of `handleToggleChecked` of the source (after its guard): if the
node is currently checked, remove it and all its descendants, else add it
and all its descendants; then run `updateParentCheckStates` over the whole
tree `data`. -/
def handleToggleChecked (data : List TreeNode) (node : TreeNode)
    (checkedNodes : Finset String) : Finset String :=
  let allDescendantIds := getAllDescendantIds node.children
  let isChecked := node.id ∈ checkedNodes
  let currentSet :=
    if isChecked then
      allDescendantIds.foldl (fun s i => s.erase i) (checkedNodes.erase node.id)
    else
      allDescendantIds.foldl (fun s i => insert i s) (insert node.id checkedNodes)
  updateParentCheckStates data currentSet

/-- Body of the first implementation's `handleLocalCheckboxChange` (global
policy, after its guard): drop every descendant of the node, re-add exactly
the reported `newValues`, then reconcile the entire tree. -/
def handleLocalCheckboxChange (data : List TreeNode) (node : TreeNode)
    (checkedNodes : Finset String) (newValues : List String) : Finset String :=
  let allDescendantIds := getAllDescendantIds node.children
  let s1 := allDescendantIds.foldl (fun s i => s.erase i) checkedNodes
  let s2 := newValues.foldl (fun s i => insert i s) s1
  updateParentCheckStates data s2

/-- Body of the second implementation's `handleLocalCheckboxChange` (local
policy, after its guard): drop every descendant, re-add `newValues`, then
update only this node's own membership by comparing the count of new values
with the count of its leaf descendants. -/
def handleLocalCheckboxChangeLocal (node : TreeNode)
    (checkedNodes : Finset String) (newValues : List String) : Finset String :=
  let allDescendantIds := getAllDescendantIds node.children
  let allLeafIds := getLeafNodeIds node.children
  let s1 := allDescendantIds.foldl (fun s i => s.erase i) checkedNodes
  let s2 := newValues.foldl (fun s i => insert i s) s1
  if newValues.length = allLeafIds.length then insert node.id s2 else s2.erase node.id

/-- Source expression `isTabbable`: the node is the last focused one, or no node
has been focused yet and this node is the first visible one
(`visibleNodeIds[0] === node.id`). -/
def isTabbable (visibleNodeIds : List String) (lastFocusedNodeId : Option String)
    (nodeId : String) : Bool :=
  (lastFocusedNodeId == some nodeId) ||
    (lastFocusedNodeId == none && visibleNodeIds.head? == some nodeId)

/-- Source expression `tabIndex={isDisabled ? -1 : isTabbable ? 0 : -1}`. -/
def tabIndexOf (visibleNodeIds : List String) (isDisabled : Bool)
    (lastFocusedNodeId : Option String) (nodeId : String) : Int :=
  if isDisabled then -1
  else if isTabbable visibleNodeIds lastFocusedNodeId nodeId then 0 else -1

/-- The visible ids rendered with `tabIndex = 0` (a rendered node is
disabled exactly when its id was recorded in the disabled map). -/
def focusTargets (visibleNodeIds disabledIds : List String)
    (lastFocusedNodeId : Option String) : List String :=
  visibleNodeIds.filter fun i =>
    tabIndexOf visibleNodeIds (decide (i ∈ disabledIds)) lastFocusedNodeId i == 0

/-- Source expression `visibleNodeIds.indexOf(node.id)` with JavaScript semantics: `-1` when
the id is not present. -/
def jsIndexOf (visibleNodeIds : List String) (nodeId : String) : Int :=
  if nodeId ∈ visibleNodeIds then (visibleNodeIds.indexOf nodeId : Int) else -1

/-- The ArrowDown scan: walk `visibleNodeIds` from `currentIndex + 1`
upward, skipping ids in the disabled map, and return the first eligible id
(every visible node has a registered element). -/
def moveNextTarget (visibleNodeIds disabledIds : List String)
    (nodeId : String) : Option String :=
  (visibleNodeIds.drop (jsIndexOf visibleNodeIds nodeId + 1).toNat).find?
    fun i => !(decide (i ∈ disabledIds))

/-- The ArrowUp scan: walk from `currentIndex - 1` down to `0`, skipping
disabled ids. -/
def movePrevTarget (visibleNodeIds disabledIds : List String)
    (nodeId : String) : Option String :=
  ((visibleNodeIds.take (jsIndexOf visibleNodeIds nodeId).toNat).reverse).find?
    fun i => !(decide (i ∈ disabledIds))

/-- The Home scan: first visible id not in the disabled map. -/
def jumpFirstTarget (visibleNodeIds disabledIds : List String) : Option String :=
  visibleNodeIds.find? fun i => !(decide (i ∈ disabledIds))

/-- The End scan: last visible id not in the disabled map. -/
def jumpLastTarget (visibleNodeIds disabledIds : List String) : Option String :=
  visibleNodeIds.reverse.find? fun i => !(decide (i ∈ disabledIds))

/-- The committed focus state after a navigation command: the scan's hit
becomes the last-focused id, and a missed scan leaves focus untouched. -/
def focusAfter (lastFocusedNodeId : Option String) : Option String → Option String
  | some t => some t
  | none => lastFocusedNodeId

/-- The Enter branch of `handleKeyDown` with `enableBulkActions` on
(primary-activate in bulk-checked mode): disabled nodes return early; a
node with children toggles its expansion, a leaf toggles its own checked
state.  Returns (expandedNodes, checkedNodes). -/
def primaryActivateBulk (data : List TreeNode) (node : TreeNode)
    (expandedNodes checkedNodes : Finset String) : Finset String × Finset String :=
  if node.disabled then (expandedNodes, checkedNodes)
  else if !node.children.isEmpty then
    (handleToggleNode expandedNodes node.id, checkedNodes)
  else
    (expandedNodes, handleToggleChecked data node checkedNodes)

/-- Outcome of an event handler: it either commits a new checked set
through the change callback, returns early without committing anything, or
throws.  The source's checkbox handlers never construct `thrown`. -/
inductive HandlerResult where
  | committed (checkedNodes : Finset String)
  | silentNoop
  | thrown (msg : String)
deriving DecidableEq

def HandlerResult.isError : HandlerResult → Bool
  | .thrown _ => true
  | _ => false

/-- Source function `handleToggleChecked` with its guard: when the change callback or the
checked-state input is missing it returns early
(`if (!context.onCheckedNodesChange || !context.checkedNodes) return`),
otherwise it commits the toggled set. -/
def handleToggleCheckedGuarded (data : List TreeNode) (node : TreeNode)
    (hasOnCheckedNodesChange : Bool) (checkedNodes : Option (Finset String)) :
    HandlerResult :=
  match hasOnCheckedNodesChange, checkedNodes with
  | true, some c => .committed (handleToggleChecked data node c)
  | _, _ => .silentNoop

/-- Source function `handleLocalCheckboxChange` (global variant) with the same guard. -/
def handleLocalCheckboxChangeGuarded (data : List TreeNode) (node : TreeNode)
    (hasOnCheckedNodesChange : Bool) (checkedNodes : Option (Finset String))
    (newValues : List String) : HandlerResult :=
  match hasOnCheckedNodesChange, checkedNodes with
  | true, some c => .committed (handleLocalCheckboxChange data node c newValues)
  | _, _ => .silentNoop

/-- Source hook `useTreeContext`: reading the context outside a Tree
throws a configuration error; inside, it returns the context value. -/
def useTreeContext {α : Type} : Option α → Except String α
  | none => .error "Tree components must be used within a Tree"
  | some ctx => .ok ctx

/-! ### Analysis definitions -/

/-- All nodes of the forest in depth-first pre-order. -/
def subnodes : List TreeNode → List TreeNode
  | [] => []
  | .mk i d cs :: rest => .mk i d cs :: (subnodes cs ++ subnodes rest)

/-- All ids of the forest in depth-first pre-order. -/
def idsOf (ts : List TreeNode) : List String := (subnodes ts).map TreeNode.id

/-- Ids of the nodes that have at least one child. -/
def parentIds : List TreeNode → List String
  | [] => []
  | .mk i _ cs :: rest =>
    if cs.isEmpty then parentIds rest else i :: (parentIds cs ++ parentIds rest)

/-- The nodes actually reached by the `collectVisibleIds` traversal, in
traversal order. -/
def visibleNodes (expandedNodes : Finset String) : List TreeNode → List TreeNode
  | [] => []
  | .mk i d cs :: rest =>
    .mk i d cs ::
      ((if i ∈ expandedNodes then visibleNodes expandedNodes cs else []) ++
        visibleNodes expandedNodes rest)

/-- Relation `OccursAt ts i anc`: some node with id `i` occurs in the forest `ts`,
and `anc` is the id chain of its ancestors from the root downward. -/
inductive OccursAt : List TreeNode → String → List String → Prop where
  | head (n : TreeNode) (rest : List TreeNode) : OccursAt (n :: rest) n.id []
  | inChild (n : TreeNode) (rest : List TreeNode) (i : String) (anc : List String) :
      OccursAt n.children i anc → OccursAt (n :: rest) i (n.id :: anc)
  | inRest (n : TreeNode) (rest : List TreeNode) (i : String) (anc : List String) :
      OccursAt rest i anc → OccursAt (n :: rest) i anc

/-- Nested induction principle for forests: to prove a property of every
`List TreeNode`, prove it for `[]` and for `mk i d cs :: rest` assuming it
for the children `cs` and the tail `rest`. -/
theorem treeList_induction (P : List TreeNode → Prop) (hnil : P [])
    (hcons : ∀ i d cs rest, P cs → P rest → P (TreeNode.mk i d cs :: rest)) :
    ∀ ts, P ts
  | [] => hnil
  | .mk i d cs :: rest =>
    hcons i d cs rest (treeList_induction P hnil hcons cs)
      (treeList_induction P hnil hcons rest)

/-! ### Basic lemmas about the traversals -/

theorem subnodes_cons (i : String) (d : Bool) (cs rest : List TreeNode) :
    subnodes (.mk i d cs :: rest) = .mk i d cs :: (subnodes cs ++ subnodes rest) := by
  simp [subnodes]

theorem updateParentCheckStates_cons (i : String) (d : Bool) (cs rest : List TreeNode)
    (s : Finset String) :
    updateParentCheckStates (.mk i d cs :: rest) s =
      if cs.isEmpty then updateParentCheckStates rest s
      else
        updateParentCheckStates rest
          (if ∀ l ∈ getLeafNodeIds cs, l ∈ updateParentCheckStates cs s then
            insert i (updateParentCheckStates cs s)
          else (updateParentCheckStates cs s).erase i) := by
  rw [updateParentCheckStates]

theorem idsOf_nil : idsOf [] = [] := by
  simp [idsOf, subnodes]

theorem idsOf_cons (i : String) (d : Bool) (cs rest : List TreeNode) :
    idsOf (.mk i d cs :: rest) = i :: (idsOf cs ++ idsOf rest) := by
  simp [idsOf, subnodes_cons, TreeNode.id]

theorem mem_idsOf_of_mem_subnodes {p : TreeNode} {ts : List TreeNode}
    (h : p ∈ subnodes ts) : p.id ∈ idsOf ts :=
  List.mem_map_of_mem TreeNode.id h

theorem mem_idsOf_of_mem_parentIds (ts : List TreeNode) :
    ∀ j ∈ parentIds ts, j ∈ idsOf ts := by
  induction ts using treeList_induction with
  | hnil => simp [parentIds]
  | hcons i d cs rest ihc ihr =>
    intro j hj
    rw [parentIds] at hj
    rw [idsOf_cons]
    by_cases hcs : cs.isEmpty
    · rw [if_pos hcs] at hj
      exact List.mem_cons_of_mem _ (List.mem_append_right _ (ihr j hj))
    · rw [if_neg hcs] at hj
      rcases List.mem_cons.mp hj with h | h
      · exact h ▸ List.mem_cons_self _ _
      · rcases List.mem_append.mp h with h | h
        · exact List.mem_cons_of_mem _ (List.mem_append_left _ (ihc j h))
        · exact List.mem_cons_of_mem _ (List.mem_append_right _ (ihr j h))

theorem mem_idsOf_of_mem_leafIds (ts : List TreeNode) :
    ∀ l ∈ getLeafNodeIds ts, l ∈ idsOf ts := by
  induction ts using treeList_induction with
  | hnil => simp [getLeafNodeIds, idsOf, subnodes]
  | hcons i d cs rest ihc ihr =>
    intro l hl
    rw [getLeafNodeIds] at hl
    rw [idsOf_cons]
    by_cases hcs : cs.isEmpty
    · rw [if_pos hcs] at hl
      rcases List.mem_cons.mp hl with h | h
      · exact h ▸ List.mem_cons_self _ _
      · exact List.mem_cons_of_mem _ (List.mem_append_right _ (ihr l h))
    · rw [if_neg hcs] at hl
      rcases List.mem_append.mp hl with h | h
      · exact List.mem_cons_of_mem _ (List.mem_append_left _ (ihc l h))
      · exact List.mem_cons_of_mem _ (List.mem_append_right _ (ihr l h))

theorem subnodes_children_subset (ts : List TreeNode) :
    ∀ p ∈ subnodes ts, ∀ q ∈ subnodes p.children, q ∈ subnodes ts := by
  induction ts using treeList_induction with
  | hnil => simp [subnodes]
  | hcons i d cs rest ihc ihr =>
    intro p hp q hq
    rw [subnodes_cons] at hp ⊢
    rcases List.mem_cons.mp hp with h | h
    · subst h
      simp only [TreeNode.children] at hq
      exact List.mem_cons_of_mem _ (List.mem_append_left _ hq)
    · rcases List.mem_append.mp h with h | h
      · exact List.mem_cons_of_mem _ (List.mem_append_left _ (ihc p h q hq))
      · exact List.mem_cons_of_mem _ (List.mem_append_right _ (ihr p h q hq))

theorem exists_of_mem_parentIds (ts : List TreeNode) :
    ∀ j ∈ parentIds ts, ∃ p ∈ subnodes ts, p.children ≠ [] ∧ p.id = j := by
  induction ts using treeList_induction with
  | hnil => simp [parentIds]
  | hcons i d cs rest ihc ihr =>
    intro j hj
    rw [parentIds] at hj
    by_cases hcs : cs.isEmpty
    · rw [if_pos hcs] at hj
      obtain ⟨p, hp, h1, h2⟩ := ihr j hj
      exact ⟨p, by
        rw [subnodes_cons]
        exact List.mem_cons_of_mem _ (List.mem_append_right _ hp), h1, h2⟩
    · rw [if_neg hcs] at hj
      rcases List.mem_cons.mp hj with h | h
      · refine ⟨.mk i d cs, by rw [subnodes_cons]; exact List.mem_cons_self _ _, ?_, ?_⟩
        · simp only [TreeNode.children]
          exact fun hnil => hcs (by simp [hnil])
        · simp only [TreeNode.id]
          exact h.symm
      · rcases List.mem_append.mp h with h | h
        · obtain ⟨p, hp, h1, h2⟩ := ihc j h
          exact ⟨p, by
            rw [subnodes_cons]
            exact List.mem_cons_of_mem _ (List.mem_append_left _ hp), h1, h2⟩
        · obtain ⟨p, hp, h1, h2⟩ := ihr j h
          exact ⟨p, by
            rw [subnodes_cons]
            exact List.mem_cons_of_mem _ (List.mem_append_right _ hp), h1, h2⟩

/-- Splitting the no-duplicate-ids hypothesis at a cons cell. -/
theorem nodup_parts {i : String} {d : Bool} {cs rest : List TreeNode}
    (h : (idsOf (.mk i d cs :: rest)).Nodup) :
    i ∉ idsOf cs ∧ i ∉ idsOf rest ∧ (idsOf cs).Nodup ∧ (idsOf rest).Nodup ∧
      ∀ x ∈ idsOf cs, x ∉ idsOf rest := by
  rw [idsOf_cons] at h
  rcases List.nodup_cons.mp h with ⟨hi, happ⟩
  rcases List.nodup_append.mp happ with ⟨h1, h2, hdis⟩
  exact ⟨fun hx => hi (List.mem_append_left _ hx),
    fun hx => hi (List.mem_append_right _ hx), h1, h2,
    fun x hx hx' => hdis hx hx'⟩

/-- Frame property of the reconciliation: an id that is not the id of a
node with children is never added or removed. -/
theorem mem_updateParent_of_not_parent (ts : List TreeNode) :
    ∀ (s : Finset String) (j : String), j ∉ parentIds ts →
      (j ∈ updateParentCheckStates ts s ↔ j ∈ s) := by
  induction ts using treeList_induction with
  | hnil => intro s j _; rw [updateParentCheckStates]
  | hcons i d cs rest ihc ihr =>
    intro s j hj
    rw [updateParentCheckStates_cons]
    rw [parentIds] at hj
    by_cases hcs : cs.isEmpty
    · rw [if_pos hcs] at hj ⊢
      exact ihr s j hj
    · rw [if_neg hcs] at hj ⊢
      have hji : j ≠ i := fun h => hj (h ▸ List.mem_cons_self i _)
      have hjc : j ∉ parentIds cs :=
        fun h => hj (List.mem_cons_of_mem _ (List.mem_append_left _ h))
      have hjr : j ∉ parentIds rest :=
        fun h => hj (List.mem_cons_of_mem _ (List.mem_append_right _ h))
      rw [ihr _ _ hjr]
      split
      · simp [Finset.mem_insert, hji, ihc s j hjc]
      · simp [Finset.mem_erase, hji, ihc s j hjc]

/-- Core correctness of the reconciliation: in a tree without duplicate
ids, after `updateParentCheckStates` every node with children is checked
exactly when all of its leaf descendants are checked. -/
theorem updateParent_invariant (ts : List TreeNode) :
    ∀ s : Finset String, (idsOf ts).Nodup →
      ∀ p ∈ subnodes ts, p.children ≠ [] →
        (p.id ∈ updateParentCheckStates ts s ↔
          ∀ l ∈ getLeafNodeIds p.children, l ∈ updateParentCheckStates ts s) := by
  induction ts using treeList_induction with
  | hnil => intro s _ p hp; simp [subnodes] at hp
  | hcons i d cs rest ihc ihr =>
    intro s hnd p hp hpch
    obtain ⟨hics, hirest, hndcs, hndrest, hdisj⟩ := nodup_parts hnd
    rw [updateParentCheckStates_cons]
    rw [subnodes_cons] at hp
    by_cases hcs : cs.isEmpty
    · rw [if_pos hcs]
      have hcsnil : cs = [] := List.isEmpty_iff.mp hcs
      rcases List.mem_cons.mp hp with h | h
      · subst h
        simp only [TreeNode.children] at hpch
        exact absurd hcsnil hpch
      · rcases List.mem_append.mp h with h | h
        · rw [hcsnil] at h
          simp [subnodes] at h
        · exact ihr s hndrest p h hpch
    · rw [if_neg hcs]
      rcases List.mem_cons.mp hp with h | h
      · -- `p` is the head node: the decision taken for it is preserved by
        -- the processing of `rest`, which touches neither `i` nor the
        -- leaves below `cs`.
        subst h
        simp only [TreeNode.id, TreeNode.children]
        have hiframe : ∀ s2 : Finset String,
            i ∈ updateParentCheckStates rest s2 ↔ i ∈ s2 := fun s2 =>
          mem_updateParent_of_not_parent rest s2 i
            (fun hx => hirest (mem_idsOf_of_mem_parentIds rest i hx))
        have hlframe : ∀ s2 : Finset String, ∀ l ∈ getLeafNodeIds cs,
            (l ∈ updateParentCheckStates rest s2 ↔ l ∈ s2) := by
          intro s2 l hl
          exact mem_updateParent_of_not_parent rest s2 l
            (fun hx => hdisj l (mem_idsOf_of_mem_leafIds cs l hl)
              (mem_idsOf_of_mem_parentIds rest l hx))
        by_cases hall : ∀ l ∈ getLeafNodeIds cs, l ∈ updateParentCheckStates cs s
        · rw [if_pos hall]
          refine iff_of_true ((hiframe _).mpr (Finset.mem_insert_self i _)) ?_
          intro l hl
          exact (hlframe _ l hl).mpr (Finset.mem_insert_of_mem (hall l hl))
        · rw [if_neg hall]
          refine iff_of_false ?_ ?_
          · intro h
            exact Finset.not_mem_erase i _ ((hiframe _).mp h)
          · intro h
            apply hall
            intro l hl
            exact Finset.mem_of_mem_erase ((hlframe _ l hl).mp (h l hl))
      · rcases List.mem_append.mp h with h | h
        · -- `p` lies below `cs`: its ids are untouched by the head's
          -- decision and by the processing of `rest`.
          have hpidcs : p.id ∈ idsOf cs :=
            List.mem_map_of_mem TreeNode.id h
          have hsubids : ∀ x ∈ idsOf p.children, x ∈ idsOf cs := by
            intro x hx
            obtain ⟨q, hq, rfl⟩ := List.mem_map.mp hx
            exact List.mem_map_of_mem _ (subnodes_children_subset cs p h q hq)
          have key : ∀ j ∈ idsOf cs,
              (j ∈ updateParentCheckStates rest
                  (if ∀ l ∈ getLeafNodeIds cs, l ∈ updateParentCheckStates cs s then
                    insert i (updateParentCheckStates cs s)
                  else (updateParentCheckStates cs s).erase i) ↔
                j ∈ updateParentCheckStates cs s) := by
            intro j hjcs
            have hji : j ≠ i := fun hji => hics (hji ▸ hjcs)
            have hjframe : j ∉ parentIds rest :=
              fun hx => hdisj j hjcs (mem_idsOf_of_mem_parentIds rest j hx)
            rw [mem_updateParent_of_not_parent rest _ j hjframe]
            split
            · simp [Finset.mem_insert, hji]
            · simp [Finset.mem_erase, hji]
          have ih := ihc s hndcs p h hpch
          constructor
          · intro hL l hl
            exact (key l (hsubids l (mem_idsOf_of_mem_leafIds p.children l hl))).mpr
              (ih.mp ((key p.id hpidcs).mp hL) l hl)
          · intro hR
            exact (key p.id hpidcs).mpr (ih.mpr fun l hl =>
              (key l (hsubids l (mem_idsOf_of_mem_leafIds p.children l hl))).mp (hR l hl))
        · -- `p` lies in `rest`: the induction hypothesis applies directly.
          exact ihr _ hndrest p h hpch

/-- If the checked set already satisfies the parent/leaf invariant,
reconciliation leaves it unchanged. -/
theorem updateParent_fixed (ts : List TreeNode) :
    ∀ s : Finset String,
      (∀ p ∈ subnodes ts, p.children ≠ [] →
        (p.id ∈ s ↔ ∀ l ∈ getLeafNodeIds p.children, l ∈ s)) →
      updateParentCheckStates ts s = s := by
  induction ts using treeList_induction with
  | hnil => intro s _; rw [updateParentCheckStates]
  | hcons i d cs rest ihc ihr =>
    intro s hinv
    have hinvcs : ∀ p ∈ subnodes cs, p.children ≠ [] →
        (p.id ∈ s ↔ ∀ l ∈ getLeafNodeIds p.children, l ∈ s) := by
      intro p hp
      exact hinv p (by
        rw [subnodes_cons]
        exact List.mem_cons_of_mem _ (List.mem_append_left _ hp))
    have hinvrest : ∀ p ∈ subnodes rest, p.children ≠ [] →
        (p.id ∈ s ↔ ∀ l ∈ getLeafNodeIds p.children, l ∈ s) := by
      intro p hp
      exact hinv p (by
        rw [subnodes_cons]
        exact List.mem_cons_of_mem _ (List.mem_append_right _ hp))
    rw [updateParentCheckStates_cons]
    by_cases hcs : cs.isEmpty
    · rw [if_pos hcs]
      exact ihr s hinvrest
    · rw [if_neg hcs]
      rw [ihc s hinvcs]
      have hhead := hinv (.mk i d cs)
        (by rw [subnodes_cons]; exact List.mem_cons_self _ _)
        (by
          simp only [TreeNode.children]
          exact fun hnil => hcs (by simp [hnil]))
      simp only [TreeNode.id, TreeNode.children] at hhead
      by_cases hall : ∀ l ∈ getLeafNodeIds cs, l ∈ s
      · rw [if_pos hall, Finset.insert_eq_self.mpr (hhead.mpr hall)]
        exact ihr s hinvrest
      · rw [if_neg hall, Finset.erase_eq_self.mpr (fun hi => hall (hhead.mp hi))]
        exact ihr s hinvrest

/-- In a tree without duplicate ids, the id of a childless node is never
the id of a node with children. -/
theorem leaf_id_not_mem_parentIds {ts : List TreeNode} (hnd : (idsOf ts).Nodup)
    {p : TreeNode} (hp : p ∈ subnodes ts) (hleaf : p.children = []) :
    p.id ∉ parentIds ts := by
  intro hmem
  obtain ⟨q, hq, hqch, hqid⟩ := exists_of_mem_parentIds ts p.id hmem
  have hnd' : ((subnodes ts).map TreeNode.id).Nodup := hnd
  have : q = p := List.inj_on_of_nodup_map hnd' hq hp hqid
  exact hqch (this ▸ hleaf)

/-! ### Example trees used by the concrete witnesses -/

/-- Example tree: grandparent `g` over parent `p` over leaves `x`, `y`. -/
def exTree : List TreeNode :=
  [.mk "g" false [.mk "p" false [.mk "x" false [], .mk "y" false []]]]

def exP : TreeNode := .mk "p" false [.mk "x" false [], .mk "y" false []]

def exX : TreeNode := .mk "x" false []

/-- Example tree with a disabled node inside a collapsed subtree. -/
def exTreeDisabled : List TreeNode :=
  [.mk "a" false [.mk "b" true []]]

/-! ### Claim theorems -/

/-- C1: for every tree without duplicate ids, after either checked-state
operation (`handleToggleChecked` or `handleLocalCheckboxChange`, both of
which end by running `updateParentCheckStates` over the whole tree), a
node with at least one child is a member of the committed checked set if
and only if every one of its leaf descendants is a member. -/
theorem checked_ops_parent_invariant (data : List TreeNode) (node : TreeNode)
    (s : Finset String) (newValues : List String) (p : TreeNode)
    (hnd : (idsOf data).Nodup) (hp : p ∈ subnodes data) (hpch : p.children ≠ []) :
    (p.id ∈ handleToggleChecked data node s ↔
      ∀ l ∈ getLeafNodeIds p.children, l ∈ handleToggleChecked data node s) ∧
    (p.id ∈ handleLocalCheckboxChange data node s newValues ↔
      ∀ l ∈ getLeafNodeIds p.children,
        l ∈ handleLocalCheckboxChange data node s newValues) := by
  constructor
  · simp only [handleToggleChecked]
    exact updateParent_invariant data _ hnd p hp hpch
  · simp only [handleLocalCheckboxChange]
    exact updateParent_invariant data _ hnd p hp hpch

/-- Witness for C1 at the concrete tree `g{p{x, y}}`, toggling the leaf
`x` and reporting a local group change. -/
theorem checked_ops_parent_invariant_witness :
    ((TreeNode.mk "p" false [.mk "x" false [], .mk "y" false []]).id ∈
        handleToggleChecked exTree exX ∅ ↔
      ∀ l ∈ getLeafNodeIds (TreeNode.mk "p" false
          [.mk "x" false [], .mk "y" false []]).children,
        l ∈ handleToggleChecked exTree exX ∅) ∧
    ((TreeNode.mk "p" false [.mk "x" false [], .mk "y" false []]).id ∈
        handleLocalCheckboxChange exTree exX ∅ ["x"] ↔
      ∀ l ∈ getLeafNodeIds (TreeNode.mk "p" false
          [.mk "x" false [], .mk "y" false []]).children,
        l ∈ handleLocalCheckboxChange exTree exX ∅ ["x"]) :=
  checked_ops_parent_invariant exTree exX ∅ ["x"] exP
    (by simp [exTree, idsOf_cons, idsOf_nil])
    (by simp [exTree, exP, subnodes])
    (by simp [exP, TreeNode.children])

/-- C9: reconciliation is idempotent on trees without duplicate ids. -/
theorem reconcile_idempotent (ts : List TreeNode) (s : Finset String)
    (hnd : (idsOf ts).Nodup) :
    updateParentCheckStates ts (updateParentCheckStates ts s) =
      updateParentCheckStates ts s :=
  updateParent_fixed ts _ (fun p hp hpch => updateParent_invariant ts s hnd p hp hpch)

/-- Witness for C9 at the concrete tree `g{p{x, y}}` starting from `{x}`. -/
theorem reconcile_idempotent_witness :
    updateParentCheckStates exTree (updateParentCheckStates exTree {"x"}) =
      updateParentCheckStates exTree {"x"} :=
  reconcile_idempotent exTree {"x"} (by simp [exTree, idsOf_cons, idsOf_nil])

/-- C10: reconciliation never changes the membership of a leaf id — for a
tree without duplicate ids, any childless node's id is in the output set
exactly when it was in the input set. -/
theorem reconcile_leaf_frame (ts : List TreeNode) (s : Finset String) (p : TreeNode)
    (hnd : (idsOf ts).Nodup) (hp : p ∈ subnodes ts) (hleaf : p.children = []) :
    (p.id ∈ updateParentCheckStates ts s ↔ p.id ∈ s) :=
  mem_updateParent_of_not_parent ts s p.id (leaf_id_not_mem_parentIds hnd hp hleaf)

/-- Witness for C10 at the concrete tree `g{p{x, y}}` and the leaf `x`. -/
theorem reconcile_leaf_frame_witness :
    ((TreeNode.mk "x" false []).id ∈ updateParentCheckStates exTree {"x"} ↔
      (TreeNode.mk "x" false []).id ∈ ({"x"} : Finset String)) :=
  reconcile_leaf_frame exTree {"x"} exX
    (by simp [exTree, idsOf_cons, idsOf_nil])
    (by simp [exTree, exX, subnodes])
    (by simp [exX, TreeNode.children])

/-- C5: the two propagation policies are not equivalent.  On the tree
`g{p{x, y}}` with only the grandchild `x` checked, a checkbox-group change
under `p` reporting `[x, y]` commits `{x, y, p, g}` under the global
reconciliation policy but `{x, y, p}` under the local policy: only the
global pass corrects the grandparent `g`. -/
theorem dual_policies_differ :
    handleLocalCheckboxChange exTree exP {"x"} ["x", "y"] ≠
      handleLocalCheckboxChangeLocal exP {"x"} ["x", "y"] := by
  have h1 : handleLocalCheckboxChange exTree exP {"x"} ["x", "y"] =
      ({"x", "y", "p", "g"} : Finset String) := by
    simp [handleLocalCheckboxChange, exTree, exP, getAllDescendantIds,
      getLeafNodeIds, updateParentCheckStates, TreeNode.children, TreeNode.id]
    decide
  have h2 : handleLocalCheckboxChangeLocal exP {"x"} ["x", "y"] =
      ({"x", "y", "p"} : Finset String) := by
    simp [handleLocalCheckboxChangeLocal, exP, getAllDescendantIds,
      getLeafNodeIds, TreeNode.children, TreeNode.id]
    decide
  rw [h1, h2]
  decide

/-- Toggling membership flips it. -/
theorem mem_handleToggleNode (expandedNodes : Finset String) (nodeId : String) :
    nodeId ∈ handleToggleNode expandedNodes nodeId ↔ nodeId ∉ expandedNodes := by
  unfold handleToggleNode
  split
  · simp [Finset.not_mem_erase]
    assumption
  · simp
    assumption

/-- C6: in bulk-checked mode, primary-activate (the Enter branch of
`handleKeyDown`) on a non-disabled node of a tree without duplicate ids
toggles expansion and leaves the checked set unchanged when the node has
children, and toggles the leaf's own checked membership (followed by
reconciliation) while leaving the expanded set unchanged when it is a
leaf. -/
theorem bulk_primary_activate_frame (data : List TreeNode) (node : TreeNode)
    (expanded checked : Finset String)
    (hnd : (idsOf data).Nodup) (hmem : node ∈ subnodes data)
    (hdis : node.disabled = false) :
    (node.children ≠ [] →
      primaryActivateBulk data node expanded checked =
        (handleToggleNode expanded node.id, checked) ∧
      (node.id ∈ (primaryActivateBulk data node expanded checked).1 ↔
        node.id ∉ expanded)) ∧
    (node.children = [] →
      (primaryActivateBulk data node expanded checked).1 = expanded ∧
      (node.id ∈ (primaryActivateBulk data node expanded checked).2 ↔
        node.id ∉ checked)) := by
  constructor
  · intro hch
    have hne : node.children.isEmpty = false := by
      simp [List.isEmpty_iff, hch]
    have heq : primaryActivateBulk data node expanded checked =
        (handleToggleNode expanded node.id, checked) := by
      simp [primaryActivateBulk, hdis, hne]
    refine ⟨heq, ?_⟩
    rw [heq]
    exact mem_handleToggleNode expanded node.id
  · intro hleaf
    have hnp : node.id ∉ parentIds data := leaf_id_not_mem_parentIds hnd hmem hleaf
    have heq : primaryActivateBulk data node expanded checked =
        (expanded, handleToggleChecked data node checked) := by
      simp [primaryActivateBulk, hdis, hleaf]
    rw [heq]
    refine ⟨rfl, ?_⟩
    simp only [handleToggleChecked, hleaf, getAllDescendantIds, List.foldl_nil]
    rw [mem_updateParent_of_not_parent data _ _ hnp]
    split
    · simp [Finset.not_mem_erase]
      assumption
    · simp
      assumption

/-- Witness for C6 at the leaf `x` of the concrete tree `g{p{x, y}}`. -/
theorem bulk_primary_activate_frame_witness :
    (primaryActivateBulk exTree exX ∅ ∅).1 = ∅ ∧
    ((TreeNode.mk "x" false []).id ∈ (primaryActivateBulk exTree exX ∅ ∅).2 ↔
      (TreeNode.mk "x" false []).id ∉ (∅ : Finset String)) :=
  (bulk_primary_activate_frame exTree exX ∅ ∅
      (by simp [exTree, idsOf_cons, idsOf_nil])
      (by simp [exTree, exX, subnodes])
      rfl).2 rfl

/-- A successful scan for a non-disabled id never returns a disabled one. -/
theorem find_not_disabled {l dis : List String} {t : String}
    (h : l.find? (fun i => !(decide (i ∈ dis))) = some t) : t ∉ dis := by
  have := List.find?_some h
  simpa using this

/-- A scan over ids that are all disabled finds nothing. -/
theorem find_none_of_all_disabled {l dis : List String}
    (h : ∀ x ∈ l, x ∈ dis) : l.find? (fun i => !(decide (i ∈ dis))) = none := by
  rw [List.find?_eq_none]
  intro x hx
  simp [h x hx]

/-- C7: the four navigation scans (ArrowDown, ArrowUp, Home, End) never
land on a disabled id, and each leaves the committed focus unchanged when
every id in its scan direction is disabled. -/
theorem navigation_skips_disabled (vis dis : List String) (nodeId : String)
    (lf : Option String) :
    (∀ t, moveNextTarget vis dis nodeId = some t → t ∉ dis) ∧
    ((∀ x ∈ vis.drop (jsIndexOf vis nodeId + 1).toNat, x ∈ dis) →
      focusAfter lf (moveNextTarget vis dis nodeId) = lf) ∧
    (∀ t, movePrevTarget vis dis nodeId = some t → t ∉ dis) ∧
    ((∀ x ∈ vis.take (jsIndexOf vis nodeId).toNat, x ∈ dis) →
      focusAfter lf (movePrevTarget vis dis nodeId) = lf) ∧
    (∀ t, jumpFirstTarget vis dis = some t → t ∉ dis) ∧
    ((∀ x ∈ vis, x ∈ dis) → focusAfter lf (jumpFirstTarget vis dis) = lf) ∧
    (∀ t, jumpLastTarget vis dis = some t → t ∉ dis) ∧
    ((∀ x ∈ vis, x ∈ dis) → focusAfter lf (jumpLastTarget vis dis) = lf) := by
  refine ⟨fun t ht => find_not_disabled ht, fun hall => ?_,
    fun t ht => find_not_disabled ht, fun hall => ?_,
    fun t ht => find_not_disabled ht, fun hall => ?_,
    fun t ht => find_not_disabled ht, fun hall => ?_⟩
  · rw [moveNextTarget, find_none_of_all_disabled hall]
    rfl
  · rw [movePrevTarget, find_none_of_all_disabled (fun x hx =>
      hall x (List.mem_reverse.mp hx))]
    rfl
  · rw [jumpFirstTarget, find_none_of_all_disabled hall]
    rfl
  · rw [jumpLastTarget, find_none_of_all_disabled (fun x hx =>
      hall x (List.mem_reverse.mp hx))]
    rfl

/-- Filtering a duplicate-free list with a predicate that holds exactly at
`t` keeps `[t]` when `t` is present and nothing otherwise. -/
theorem filter_eq_single_of_nodup (l : List String) (hnd : l.Nodup) (t : String)
    (p : String → Bool) (hp : ∀ i ∈ l, p i = true ↔ i = t) :
    l.filter p = if t ∈ l then [t] else [] := by
  induction l with
  | nil => simp
  | cons a l ih =>
    obtain ⟨ha, hnd'⟩ := List.nodup_cons.mp hnd
    rw [List.filter_cons]
    by_cases hat : a = t
    · subst hat
      have hpa : p a = true := (hp a (List.mem_cons_self a l)).mpr rfl
      rw [if_pos hpa, ih hnd' (fun i hi => hp i (List.mem_cons_of_mem a hi)),
        if_neg ha, if_pos (List.mem_cons_self a l)]
    · have hpa : p a = false := by
        rcases Bool.eq_false_or_eq_true (p a) with h | h
        · exact absurd ((hp a (List.mem_cons_self a l)).mp h) hat
        · exact h
      rw [if_neg (by simp [hpa]), ih hnd' (fun i hi => hp i (List.mem_cons_of_mem a hi))]
      by_cases htl : t ∈ l
      · rw [if_pos htl, if_pos (List.mem_cons_of_mem a htl)]
      · rw [if_neg htl, if_neg (fun hm => by
          rcases List.mem_cons.mp hm with h | h
          · exact hat h.symm
          · exact htl h)]

/-- Filtering with a predicate that never holds yields the empty list. -/
theorem filter_eq_nil_of_all_false (l : List String) (p : String → Bool)
    (hp : ∀ i ∈ l, p i = false) : l.filter p = [] := by
  induction l with
  | nil => simp
  | cons a l ih =>
    rw [List.filter_cons, if_neg (by simp [hp a (List.mem_cons_self a l)])]
    exact ih (fun i hi => hp i (List.mem_cons_of_mem a hi))

theorem isTabbable_some (vis : List String) (f i : String) :
    isTabbable vis (some f) i = true ↔ f = i := by
  simp [isTabbable]

theorem isTabbable_none (vis : List String) (i : String) :
    isTabbable vis none i = true ↔ vis.head? = some i := by
  simp [isTabbable]

theorem tabIndex_zero_iff (vis dis : List String) (lf : Option String) (i : String) :
    ((tabIndexOf vis (decide (i ∈ dis)) lf i == 0) = true) ↔
      (i ∉ dis ∧ isTabbable vis lf i = true) := by
  by_cases hid : i ∈ dis
  · simp [tabIndexOf, hid]
  · by_cases ht : isTabbable vis lf i
    · simp [tabIndexOf, hid, ht]
    · simp [tabIndexOf, hid, ht]

/-- C2 (amended): the list of focus targets (rendered nodes with
`tabIndex = 0`) is `[lastFocused]` when a last-focused id is set, visible
and non-disabled, and `[]` when it is set but invisible or disabled; it is
`[first visible id]` when no last-focused id is set and the first visible
node is non-disabled, and `[]` when that node is disabled or nothing is
visible.  In particular at most one node — not always exactly one — is
tabbable. -/
theorem roving_focus_targets (vis dis : List String) (lf : Option String)
    (hnd : vis.Nodup) :
    focusTargets vis dis lf =
      match lf with
      | some f => if f ∈ vis ∧ f ∉ dis then [f] else []
      | none =>
        match vis.head? with
        | some h => if h ∉ dis then [h] else []
        | none => [] := by
  cases lf with
  | some f =>
    simp only [focusTargets]
    by_cases hfd : f ∈ dis
    · rw [filter_eq_nil_of_all_false _ _ ?_]
      · simp [hfd]
      · intro i hi
        rw [Bool.eq_false_iff]
        rw [Ne, tabIndex_zero_iff, isTabbable_some]
        rintro ⟨hndis, rfl⟩
        exact hndis hfd
    · rw [filter_eq_single_of_nodup vis hnd f _ ?_]
      · by_cases hfv : f ∈ vis
        · simp [hfv, hfd]
        · simp [hfv, hfd]
      · intro i hi
        rw [tabIndex_zero_iff, isTabbable_some]
        constructor
        · rintro ⟨-, he⟩
          exact he.symm
        · rintro rfl
          exact ⟨hfd, rfl⟩
  | none =>
    cases vis with
    | nil => simp [focusTargets]
    | cons h tl =>
      obtain ⟨hh, hnd'⟩ := List.nodup_cons.mp hnd
      simp only [focusTargets]
      by_cases hhd : h ∈ dis
      · rw [filter_eq_nil_of_all_false _ _ ?_]
        · simp [hhd]
        · intro i hi
          rw [Bool.eq_false_iff]
          rw [Ne, tabIndex_zero_iff, isTabbable_none]
          rintro ⟨hndis, hhead⟩
          rcases Option.some.inj hhead with rfl
          exact hndis hhd
      · rw [filter_eq_single_of_nodup _ hnd h _ ?_]
        · simp [hhd]
        · intro i hi
          rw [tabIndex_zero_iff, isTabbable_none]
          constructor
          · rintro ⟨-, hhead⟩
            exact (Option.some.inj hhead).symm
          · rintro rfl
            exact ⟨hhd, rfl⟩

/-- Witness for C2's amended statement: with `b` visible, enabled and last
focused, `b` is the unique focus target. -/
theorem roving_focus_targets_witness :
    focusTargets ["a", "b"] [] (some "b") = ["b"] := by
  rw [roving_focus_targets ["a", "b"] [] (some "b") (by decide)]
  decide

/-- Counterexample to C2 as stated: in the tree `root{child}` with `root`
collapsed, after `child` was focused and then hidden, no rendered node has
`tabIndex = 0` — the claimed fallback to the first visible node does not
exist in the code, so the number of focus targets is 0, not 1. -/
theorem roving_focus_counterexample :
    (focusTargets
        (collectVisibleIds ∅ [TreeNode.mk "root" false [TreeNode.mk "child" false []]]).1
        (collectVisibleIds ∅ [TreeNode.mk "root" false [TreeNode.mk "child" false []]]).2
        (some "child")).length ≠ 1 := by
  have h : collectVisibleIds ∅ [TreeNode.mk "root" false [TreeNode.mk "child" false []]] =
      (["root"], []) := by
    simp [collectVisibleIds]
  rw [h]
  decide

theorem collectVisibleIds_nil (E : Finset String) :
    collectVisibleIds E [] = ([], []) := by
  rw [collectVisibleIds]

theorem collectVisibleIds_fst_cons (E : Finset String) (i : String) (d : Bool)
    (cs rest : List TreeNode) :
    (collectVisibleIds E (.mk i d cs :: rest)).1 =
      i :: ((if i ∈ E then (collectVisibleIds E cs).1 else []) ++
        (collectVisibleIds E rest).1) := by
  rw [collectVisibleIds]
  by_cases hE : i ∈ E <;> simp [hE]

theorem collectVisibleIds_snd_cons (E : Finset String) (i : String) (d : Bool)
    (cs rest : List TreeNode) :
    (collectVisibleIds E (.mk i d cs :: rest)).2 =
      (if d then [i] else []) ++
        ((if i ∈ E then (collectVisibleIds E cs).2 else []) ++
          (collectVisibleIds E rest).2) := by
  rw [collectVisibleIds]
  by_cases hE : i ∈ E <;> simp [hE]

theorem visibleNodes_cons (E : Finset String) (i : String) (d : Bool)
    (cs rest : List TreeNode) :
    visibleNodes E (.mk i d cs :: rest) =
      .mk i d cs ::
        ((if i ∈ E then visibleNodes E cs else []) ++ visibleNodes E rest) := by
  rw [visibleNodes]

/-- The visible-id list is exactly the ids of the traversed nodes. -/
theorem collectVisibleIds_fst_eq (E : Finset String) (ts : List TreeNode) :
    (collectVisibleIds E ts).1 = (visibleNodes E ts).map TreeNode.id := by
  induction ts using treeList_induction with
  | hnil => simp [collectVisibleIds_nil, visibleNodes]
  | hcons i d cs rest ihc ihr =>
    rw [collectVisibleIds_fst_cons, visibleNodes_cons]
    by_cases hE : i ∈ E <;> simp [hE, ihc, ihr, TreeNode.id]

/-- C3 (amended): the disabled-id list computed by `collectVisibleIds` is
exactly the ids of the *traversed* (visible) nodes whose `disabled` flag
is set — disabled nodes inside collapsed subtrees are not included (they
reappear when the expansion set changes, because the map is recomputed). -/
theorem collectVisibleIds_snd_eq (E : Finset String) (ts : List TreeNode) :
    (collectVisibleIds E ts).2 =
      ((visibleNodes E ts).filter (fun n => n.disabled)).map TreeNode.id := by
  induction ts using treeList_induction with
  | hnil => simp [collectVisibleIds_nil, visibleNodes]
  | hcons i d cs rest ihc ihr =>
    rw [collectVisibleIds_snd_cons, visibleNodes_cons]
    by_cases hE : i ∈ E <;> cases d <;>
      simp [hE, ihc, ihr, TreeNode.id, TreeNode.disabled, List.filter_cons]

/-- Counterexample to C3 as stated: in the tree `a{b}` with `b` disabled
and `a` collapsed, `b` carries `disabled == true` in the full tree but is
absent from the computed disabled-id list. -/
theorem collected_disabled_incomplete :
    (∃ n ∈ subnodes exTreeDisabled, n.disabled = true ∧ n.id = "b") ∧
      "b" ∉ (collectVisibleIds ∅ exTreeDisabled).2 := by
  constructor
  · exact ⟨.mk "b" true [], by simp [exTreeDisabled, subnodes], rfl, rfl⟩
  · simp [exTreeDisabled, collectVisibleIds]

/-- A visible id's existence lemma, one half of C4: membership in the
visible sequence is equivalent to having an occurrence whose whole
ancestor chain is expanded. -/
theorem mem_visible_iff (E : Finset String) (ts : List TreeNode) :
    ∀ i, i ∈ (collectVisibleIds E ts).1 ↔
      ∃ anc, OccursAt ts i anc ∧ ∀ a ∈ anc, a ∈ E := by
  induction ts using treeList_induction with
  | hnil =>
    intro i
    constructor
    · simp [collectVisibleIds_nil]
    · rintro ⟨anc, hocc, -⟩
      cases hocc
  | hcons id0 d cs rest ihc ihr =>
    intro i
    rw [collectVisibleIds_fst_cons]
    constructor
    · intro h
      rcases List.mem_cons.mp h with h | h
      · subst h
        exact ⟨[], OccursAt.head (.mk i d cs) rest, by simp⟩
      · rcases List.mem_append.mp h with h | h
        · by_cases hE : id0 ∈ E
          · rw [if_pos hE] at h
            obtain ⟨anc, hocc, hanc⟩ := (ihc i).mp h
            refine ⟨id0 :: anc, OccursAt.inChild (.mk id0 d cs) rest i anc hocc, ?_⟩
            intro a ha
            rcases List.mem_cons.mp ha with rfl | ha
            · exact hE
            · exact hanc a ha
          · rw [if_neg hE] at h
            simp at h
        · obtain ⟨anc, hocc, hanc⟩ := (ihr i).mp h
          exact ⟨anc, OccursAt.inRest (.mk id0 d cs) rest i anc hocc, hanc⟩
    · rintro ⟨anc, hocc, hanc⟩
      cases hocc with
      | head =>
        exact List.mem_cons_self _ _
      | inChild n rest' i' anc' hocc' =>
        have hE : id0 ∈ E := hanc _ (List.mem_cons_self _ _)
        have hc : i ∈ (collectVisibleIds E cs).1 :=
          (ihc i).mpr ⟨anc', hocc', fun a ha => hanc a (List.mem_cons_of_mem _ ha)⟩
        exact List.mem_cons_of_mem _
          (List.mem_append_left _ (by rw [if_pos hE]; exact hc))
      | inRest n rest' i' anc' hocc' =>
        exact List.mem_cons_of_mem _
          (List.mem_append_right _ ((ihr i).mpr ⟨anc, hocc', hanc⟩))

/-- The other half of C4: the visible sequence is a subsequence of the
depth-first pre-order id sequence of the full tree. -/
theorem visible_sublist_preorder (E : Finset String) (ts : List TreeNode) :
    List.Sublist (collectVisibleIds E ts).1 (idsOf ts) := by
  induction ts using treeList_induction with
  | hnil => simp [collectVisibleIds_nil, idsOf_nil]
  | hcons i d cs rest ihc ihr =>
    rw [collectVisibleIds_fst_cons, idsOf_cons]
    refine List.Sublist.cons₂ _ (List.Sublist.append ?_ ihr)
    by_cases hE : i ∈ E
    · rw [if_pos hE]
      exact ihc
    · rw [if_neg hE]
      exact List.nil_sublist _

/-- C4: an id is in the visible-id sequence exactly when it occurs in the
tree with every ancestor expanded (roots have no ancestors and always
appear), and the sequence is ordered as a subsequence of the depth-first
pre-order traversal of the whole tree. -/
theorem visible_iff_ancestors_expanded (E : Finset String) (ts : List TreeNode) :
    (∀ i, i ∈ (collectVisibleIds E ts).1 ↔
      ∃ anc, OccursAt ts i anc ∧ ∀ a ∈ anc, a ∈ E) ∧
    List.Sublist (collectVisibleIds E ts).1 (idsOf ts) :=
  ⟨mem_visible_iff E ts, visible_sublist_preorder E ts⟩

/-- Counterexample to C8 as stated: invoking the toggle-checked operation
with its callback and checked-state input missing does not raise any
configuration error — the handler returns early as a silent no-op. -/
theorem missing_config_is_noop_counterexample :
    (handleToggleCheckedGuarded exTree exX false none).isError = false ∧
      handleToggleCheckedGuarded exTree exX false none = HandlerResult.silentNoop :=
  ⟨rfl, rfl⟩

/-- C8 (amended): using tree subcomponents without an initialized
`TreeContext` fails fast with a configuration error, but a checkbox
operation whose callback or checked-state input is missing is a silent
no-op (an early return, not an error); when both are supplied the
operation always commits a set and never errors. -/
theorem config_error_policy (data : List TreeNode) (node : TreeNode)
    (b : Bool) (cn : Option (Finset String)) (c : Finset String)
    (newValues : List String) :
    handleToggleCheckedGuarded data node false cn = .silentNoop ∧
    handleToggleCheckedGuarded data node b none = .silentNoop ∧
    handleLocalCheckboxChangeGuarded data node false cn newValues = .silentNoop ∧
    handleLocalCheckboxChangeGuarded data node b none newValues = .silentNoop ∧
    handleToggleCheckedGuarded data node true (some c) =
      .committed (handleToggleChecked data node c) ∧
    handleLocalCheckboxChangeGuarded data node true (some c) newValues =
      .committed (handleLocalCheckboxChange data node c newValues) ∧
    useTreeContext (none : Option (List TreeNode)) =
      .error "Tree components must be used within a Tree" ∧
    useTreeContext (some data) = .ok data := by
  refine ⟨?_, ?_, ?_, ?_, rfl, rfl, rfl, rfl⟩
  · cases cn <;> rfl
  · cases b <;> rfl
  · cases cn <;> rfl
  · cases b <;> rfl

end TreeSpec
